import Mathlib

/-!
# Verification of the TextReplace core

A shallow embedding of the core of `text_replace_mac_app.py`:

* `DictStore` (rule/dictionary storage with legacy-format migration),
* the cascading replacement loop of `App._do_replace_impl`,
* the diff/attribution pass of `App.apply_diff_highlight`, including the
  `difflib.SequenceMatcher` alignment it relies on,
* the occurrence highlighter of `App.refresh_input_highlight`.

Python strings are modelled as `String`/`List Char`, JSON files as inductive
file contents (absent / unparsable / parsed payload), and the file system as
an explicit record threaded through `load`.  Machine-level concerns do not
arise (all integers are list offsets).
-/

namespace TextReplace

/-! ## Data model -/

/-- The `Rule` dataclass: `{enabled: bool, src: str, dst: str}`. -/
structure Rule where
  enabled : Bool
  src : String
  dst : String
deriving DecidableEq, Repr

/-- A raw rule object as it sits in a JSON file: each field may be missing
(`r.get(field, default)` in `DictStore.load` / `_try_migrate_from_old`
supplies the default). -/
structure RawRule where
  enabledField : Option Bool
  srcField : Option String
  dstField : Option String
deriving DecidableEq, Repr

/-- One element of a rules array in a JSON file: either a well-formed rule
object, or anything else (`r.get` raises on non-dicts, aborting the whole
`try` block in `load`). -/
inductive RawEntry where
  | ok (r : RawRule)
  | malformed
deriving DecidableEq, Repr

/-- Field coercion done by `DictStore.load`: `enabled` defaults to `True`,
`src` and `dst` default to `""`. -/
def coerceRule (r : RawRule) : Rule :=
  { enabled := r.enabledField.getD true
    src := r.srcField.getD ""
    dst := r.dstField.getD "" }

/-- Building a rule list from a JSON array.  A malformed element anywhere
raises, which discards the whole result (`none`). -/
def parseRules : List RawEntry → Option (List Rule)
  | [] => some []
  | RawEntry.malformed :: _ => none
  | RawEntry.ok r :: rest => (parseRules rest).map (fun rs => coerceRule r :: rs)

/-- The in-memory `self.dicts` mapping: an insertion-ordered association
list with (by construction) unique keys, mirroring a Python `dict`. -/
abbrev Dicts := List (String × List Rule)

/-- Python's `name in self.dicts`. -/
def containsKey (d : Dicts) (k : String) : Bool :=
  d.any (fun p => p.1 == k)

/-- Python dict assignment `d[k] = v`: replaces in place if the key exists,
otherwise appends (insertion order). -/
def dictInsert (d : Dicts) (k : String) (v : List Rule) : Dicts :=
  if containsKey d k then d.map (fun p => if p.1 == k then (k, v) else p)
  else d ++ [(k, v)]

/-- The loop in `DictStore.load` that rebuilds `out` from the parsed
`data.get("dicts", {})` payload; any malformed rule aborts everything. -/
def parseDictsGo (acc : Dicts) : List (String × List RawEntry) → Option Dicts
  | [] => some acc
  | (n, es) :: rest =>
    match parseRules es with
    | none => none
    | some rs => parseDictsGo (dictInsert acc n rs) rest

/-- Content of the current-format store file (`DICT_STORE_FILE`):
missing, unparsable (or unreadable), or parsed to its `"dicts"` payload. -/
inductive StoreFile where
  | absent
  | corrupt
  | parsed (dicts : List (String × List RawEntry))
deriving DecidableEq, Repr

/-- Content of the legacy flat rules file (`OLD_RULES_FILE`). -/
inductive LegacyFile where
  | absent
  | corrupt
  | parsed (entries : List RawEntry)
deriving DecidableEq, Repr

/-- Outcome of `DictStore.load`: the in-memory mapping, and whether
`self.save()` was invoked (i.e. the store file was written). -/
structure LoadResult where
  dicts : Dicts
  savedStore : Bool
deriving DecidableEq, Repr

namespace DictStore

/-- `DictStore._try_migrate_from_old`: reads the legacy file if present;
on success sets `self.dicts = {"default": rules}` and reports `True`. -/
def tryMigrateFromOld : LegacyFile → Option Dicts
  | LegacyFile.absent => none
  | LegacyFile.corrupt => none
  | LegacyFile.parsed es =>
    match parseRules es with
    | none => none
    | some rs => some [("default", rs)]

/-- `DictStore.load`, as a function of the two file contents. -/
def load (store : StoreFile) (legacy : LegacyFile) : LoadResult :=
  match store with
  | StoreFile.absent =>
    match tryMigrateFromOld legacy with
    | some d => { dicts := d, savedStore := true }
    | none => { dicts := [("default", [])], savedStore := true }
  | StoreFile.corrupt => { dicts := [("default", [])], savedStore := false }
  | StoreFile.parsed entries =>
    match parseDictsGo [] entries with
    | none => { dicts := [("default", [])], savedStore := false }
    | some out =>
      if out.isEmpty then { dicts := [("default", [])], savedStore := false }
      else { dicts := out, savedStore := false }

/-- `asdict(r)` in `DictStore.save`: every field is written out. -/
def serializeRule (r : Rule) : RawRule :=
  { enabledField := some r.enabled, srcField := some r.src, dstField := some r.dst }

/-- The `"dicts"` payload written by `DictStore.save`. -/
def serializeDicts (d : Dicts) : List (String × List RawEntry) :=
  d.map (fun p => (p.1, p.2.map (fun r => RawEntry.ok (serializeRule r))))

/-- `DictStore.get_rules`: auto-vivifies an empty list for unknown names. -/
def get_rules (d : Dicts) (name : String) : List Rule × Dicts :=
  if containsKey d name then ((d.lookup name).getD [], d)
  else ([], d ++ [(name, [])])

/-- `DictStore.create`. -/
def create (d : Dicts) (name : String) : Dicts × Bool :=
  let name := name.trim
  if name = "" ∨ containsKey d name then (d, false)
  else (d ++ [(name, [])], true)

/-- `DictStore.delete`. -/
def delete (d : Dicts) (name : String) : Dicts × Bool :=
  if name = "default" then (d, false)
  else if containsKey d name = false then (d, false)
  else
    let d1 := d.filter (fun p => !(p.1 == name))
    let d2 := if containsKey d1 "default" then d1 else d1 ++ [("default", [])]
    (d2, true)

end DictStore

/-- The two storage files seen by `DictStore`. -/
structure FS where
  store : StoreFile
  legacy : LegacyFile
deriving DecidableEq, Repr

/-- `DictStore.load` together with its effect on the file system: the store
file is rewritten exactly when `save()` ran; the legacy file is never
written. -/
def loadFS (fs : FS) : LoadResult × FS :=
  let res := DictStore.load fs.store fs.legacy
  (res,
   { store := if res.savedStore then StoreFile.parsed (DictStore.serializeDicts res.dicts)
              else fs.store
     legacy := fs.legacy })

/-! ## Replacement engine (`App._do_replace_impl`) -/

/-- Python `s.replace(pat, dst)` for a non-empty `pat`: replace every
non-overlapping occurrence left to right.  The `fuel` argument makes the
recursion structural; every step consumes at least one character of `s`,
so `fuel = s.length` reproduces the Python function exactly (the `0` case
is then reached only with `s = []`).  The `pat ≠ []` guard is never false
at a call site: `_do_replace_impl` filters out rules with empty `src`. -/
def replaceFuel (pat dst : List Char) : Nat → List Char → List Char
  | 0, s => s
  | fuel + 1, s =>
    match s with
    | [] => []
    | c :: rest =>
      if pat ≠ [] ∧ pat.isPrefixOf (c :: rest) then
        dst ++ replaceFuel pat dst fuel ((c :: rest).drop pat.length)
      else
        c :: replaceFuel pat dst fuel rest

/-- String-level wrapper for `s.replace(pat, dst)`. -/
def pyReplace (s pat dst : String) : String :=
  String.mk (replaceFuel pat.data dst.data s.data.length s.data)

/-- The flattening loop of `_do_replace_impl`: active rules of the selected
dictionaries, dictionary order then stored rule order, keeping rules with
`r.enabled and r.src != ""`. -/
def flattenActive (dicts : List (List Rule)) : List Rule :=
  dicts.foldl (fun acc rs => acc ++ rs.filter (fun r => r.enabled && r.src != "")) []

/-- The replacement loop: `out = src_text; for r in enabled_rules: out =
out.replace(r.src, r.dst)`. -/
def applySeq (rules : List Rule) (text : String) : String :=
  rules.foldl (fun out r => pyReplace out r.src r.dst) text

/-- The core of `_do_replace_impl`: `none` is the `NoActiveRules` branch
(the warning dialog), `some out` the computed replacement output. -/
def doReplace (dicts : List (List Rule)) (text : String) : Option String :=
  let enabledRules := flattenActive dicts
  if enabledRules.isEmpty then none
  else some (applySeq enabledRules text)

/-- Effect of `_do_replace_impl` on the output buffer: on `NoActiveRules`
the function returns before touching `self.output`, so the previous
output text survives; the `Bool` records whether a replacement ran. -/
def doReplaceImpl (dicts : List (List Rule)) (input prevOut : String) : String × Bool :=
  match doReplace dicts input with
  | none => (prevOut, false)
  | some out => (out, true)

/-! ## Occurrence highlighter (`App.refresh_input_highlight`) -/

/-- Earliest occurrence of `pat` at or after `start`, wholly inside `text`
(the Tk `search(needle, start, stopindex="end")` call). -/
def findFrom (text pat : List Char) (start : Nat) : Option Nat :=
  ((List.range (text.length + 1)).filter
    (fun p => decide (start ≤ p) && pat.isPrefixOf (text.drop p))).head?

/-- The per-needle scan loop: record `(pos, pos + len(needle))`, resume the
search at the end of the match.  `fuel = text.length + 1` suffices because
the cursor strictly increases and never exceeds `text.length`. -/
def scanOccs (text pat : List Char) : Nat → Nat → List (Nat × Nat)
  | 0, _ => []
  | fuel + 1, start =>
    match findFrom text pat start with
    | none => []
    | some p => (p, p + pat.length) :: scanOccs text pat fuel (p + pat.length)

/-- The `src_list` collection loop: sources of enabled, non-empty-`src`
rules of the selected dictionaries, in order. -/
def collectSrcs (dicts : List (List Rule)) : List String :=
  dicts.foldl
    (fun acc rs => acc ++ (rs.filter (fun r => r.enabled && r.src != "")).map (fun r => r.src)) []

/-- The `seen`-set deduplication loop (first occurrence kept, order
preserved). -/
def dedupGo (seen : List String) : List String → List String
  | [] => []
  | s :: rest =>
    if seen.contains s then dedupGo seen rest
    else s :: dedupGo (s :: seen) rest

/-- Stable insertion for `uniq_src.sort(key=len, reverse=True)`: an element
goes before the first strictly shorter one, after equal lengths. -/
def insertLen (x : String) : List String → List String
  | [] => [x]
  | y :: ys => if y.length ≤ x.length then x :: y :: ys else y :: insertLen x ys

/-- Stable length-descending sort, matching Python's stable
`sort(key=len, reverse=True)`. -/
def sortLenDesc : List String → List String
  | [] => []
  | x :: xs => insertLen x (sortLenDesc xs)

/-- The highlight spans added by `refresh_input_highlight`: dedup the
patterns, sort longest first, then scan the whole text per needle. -/
def computeHighlights (dicts : List (List Rule)) (text : List Char) : List (Nat × Nat) :=
  let uniqSrc := dedupGo [] (collectSrcs dicts)
  if uniqSrc.isEmpty then []
  else
    (sortLenDesc uniqSrc).foldl
      (fun acc needle => acc ++ scanOccs text needle.data (text.length + 1) 0) []

/-! ## Change attribution (`App.apply_diff_highlight` / `difflib.SequenceMatcher`)

`apply_diff_highlight(original, modified)` runs
`difflib.SequenceMatcher(a=original, b=modified)` (so `isjunk is None` and
`autojunk` is on) and walks `get_opcodes()`.  The matcher is embedded below:
`b2j` with the autojunk popular-element filter, `find_longest_match` with its
four extension loops, the stack-driven `get_matching_blocks` with its final
sort and adjacency merge, and `get_opcodes`. -/

/-- Candidate-match state of `find_longest_match`
(`besti, bestj, bestsize`). -/
structure FlmState where
  besti : Nat
  bestj : Nat
  bestsize : Nat
deriving DecidableEq, Repr

/-- Indices of `c` in `b`, ascending (the `__chain_b` position lists). -/
def positionsIn (b : List Char) (c : Char) : List Nat :=
  (List.range b.length).filter (fun j => b.get? j == some c)

/-- `self.b2j.get(c, [])` after `__chain_b`: with `isjunk is None` the junk
set is empty, and autojunk drops elements occurring more than
`len(b) // 100 + 1` times once `len(b) >= 200`. -/
def b2jOf (b : List Char) (c : Char) : List Nat :=
  let idxs := positionsIn b c
  if 200 ≤ b.length ∧ b.length / 100 + 1 < idxs.length then [] else idxs

/-- `j2len.get(j, 0)` on the previous row's dictionary. -/
def jget (m : List (Nat × Nat)) (j : Nat) : Nat :=
  (m.lookup j).getD 0

/-- Inner loop of `find_longest_match` for one row `i`: walk the positions
of `a[i]` in `b` (ascending), `continue` below `blo`, `break` at `bhi`,
extend the diagonal run from the previous row and remember a strictly
better candidate.  Python's `j2len.get(j-1, 0)` at `j = 0` looks up key
`-1`, which is never present, hence the explicit `j = 0` case. -/
def flmRow (blo bhi i : Nat) (prev : List (Nat × Nat)) :
    List Nat → List (Nat × Nat) → FlmState → List (Nat × Nat) × FlmState
  | [], acc, best => (acc, best)
  | j :: js, acc, best =>
    if j < blo then flmRow blo bhi i prev js acc best
    else if bhi ≤ j then (acc, best)
    else
      let k := (if j = 0 then 0 else jget prev (j - 1)) + 1
      let best' := if best.bestsize < k then FlmState.mk (i + 1 - k) (j + 1 - k) k else best
      flmRow blo bhi i prev js ((j, k) :: acc) best'

/-- Outer loop of `find_longest_match` over `i in range(alo, ahi)`; each
row starts a fresh `newj2len` and the previous row's map is consulted. -/
def flmRows (a b : List Char) (blo bhi : Nat) :
    List Nat → List (Nat × Nat) → FlmState → FlmState
  | [], _, best => best
  | i :: rows, prev, best =>
    let js := match a.get? i with
      | some c => b2jOf b c
      | none => []
    let step := flmRow blo bhi i prev js [] best
    flmRows a b blo bhi rows step.1 step.2

/-- Character test shared by the four extension loops:
`keep (b[j])` and `a[i] == b[j]` (indices are in range at every use). -/
def extendCond (a b : List Char) (keep : Char → Bool) (i j : Nat) : Bool :=
  match a.get? i, b.get? j with
  | some x, some y => keep y && x == y
  | _, _ => false

/-- A backwards extension loop (`while besti > alo and bestj > blo and ...`).
Each iteration decrements `besti`, so `fuel = besti` suffices. -/
def extendBack (a b : List Char) (keep : Char → Bool) (alo blo : Nat) :
    Nat → FlmState → FlmState
  | 0, s => s
  | fuel + 1, s =>
    if decide (alo < s.besti) && decide (blo < s.bestj) &&
        extendCond a b keep (s.besti - 1) (s.bestj - 1) then
      extendBack a b keep alo blo fuel (FlmState.mk (s.besti - 1) (s.bestj - 1) (s.bestsize + 1))
    else s

/-- A forwards extension loop (`while besti+bestsize < ahi and ...`).
Each iteration needs `besti + bestsize < ahi`, so `fuel = ahi` suffices. -/
def extendFwd (a b : List Char) (keep : Char → Bool) (ahi bhi : Nat) :
    Nat → FlmState → FlmState
  | 0, s => s
  | fuel + 1, s =>
    if decide (s.besti + s.bestsize < ahi) && decide (s.bestj + s.bestsize < bhi) &&
        extendCond a b keep (s.besti + s.bestsize) (s.bestj + s.bestsize) then
      extendFwd a b keep ahi bhi fuel (FlmState.mk s.besti s.bestj (s.bestsize + 1))
    else s

/-- `self.bjunk.__contains__`: empty, because `apply_diff_highlight`
constructs the matcher with the default `isjunk=None`. -/
def bjunk : Char → Bool := fun _ => false

/-- `SequenceMatcher.find_longest_match(alo, ahi, blo, bhi)`. -/
def findLongestMatch (a b : List Char) (alo ahi blo bhi : Nat) : FlmState :=
  let best := flmRows a b blo bhi (List.range' alo (ahi - alo)) [] (FlmState.mk alo blo 0)
  let best := extendBack a b (fun c => !bjunk c) alo blo best.besti best
  let best := extendFwd a b (fun c => !bjunk c) ahi bhi (ahi + bhi) best
  let best := extendBack a b bjunk alo blo best.besti best
  let best := extendFwd a b bjunk ahi bhi (ahi + bhi) best
  best

/-- A matching block `(i, j, size)`. -/
structure Block where
  a : Nat
  b : Nat
  size : Nat
deriving DecidableEq, Repr

/-- A pending `(alo, ahi, blo, bhi)` rectangle on the
`get_matching_blocks` queue. -/
structure Rect where
  alo : Nat
  ahi : Nat
  blo : Nat
  bhi : Nat
deriving DecidableEq, Repr

/-- The `while queue:` loop of `get_matching_blocks`.  The list is the
stack with its top first (`queue.pop()` pops the most recently appended;
the right sub-rectangle is appended after the left one, so it is popped
first).  Every iteration pops one rectangle and the total rectangle
measure `(ahi-alo)+(bhi-blo)+1` strictly decreases, so
`fuel = la + lb + 1` (the initial measure) bounds the iteration count. -/
def mbLoop (a b : List Char) : Nat → List Rect → List Block → List Block
  | 0, _, found => found
  | _ + 1, [], found => found
  | fuel + 1, r :: rest, found =>
    let s := findLongestMatch a b r.alo r.ahi r.blo r.bhi
    if s.bestsize = 0 then mbLoop a b fuel rest found
    else
      let q1 : List Rect :=
        if r.alo < s.besti ∧ r.blo < s.bestj then [Rect.mk r.alo s.besti r.blo s.bestj] else []
      let q2 : List Rect :=
        if s.besti + s.bestsize < r.ahi ∧ s.bestj + s.bestsize < r.bhi then
          [Rect.mk (s.besti + s.bestsize) r.ahi (s.bestj + s.bestsize) r.bhi]
        else []
      mbLoop a b fuel (q2 ++ q1 ++ rest) (found ++ [Block.mk s.besti s.bestj s.bestsize])

/-- Lexicographic tuple order used by `matching_blocks.sort()`. -/
def blockLe (x y : Block) : Prop :=
  x.a < y.a ∨ (x.a = y.a ∧ (x.b < y.b ∨ (x.b = y.b ∧ x.size ≤ y.size)))

instance : DecidablePred (fun p : Block × Block => blockLe p.1 p.2) :=
  fun _ => by unfold blockLe; infer_instance

instance (x y : Block) : Decidable (blockLe x y) := by unfold blockLe; infer_instance

/-- Stable insertion into a sorted list (equal elements keep their original
relative order, matching Python's stable sort). -/
def insertBlock (x : Block) : List Block → List Block
  | [] => [x]
  | y :: ys => if blockLe x y then x :: y :: ys else y :: insertBlock x ys

/-- `matching_blocks.sort()`. -/
def sortBlocks : List Block → List Block
  | [] => []
  | x :: xs => insertBlock x (sortBlocks xs)

/-- The second loop of `get_matching_blocks`: merge adjacent equal blocks
into the `non_adjacent` list. -/
def mergeAdj : Nat → Nat → Nat → List Block → List Block → List Block
  | i1, j1, k1, acc, [] => if k1 ≠ 0 then acc ++ [Block.mk i1 j1 k1] else acc
  | i1, j1, k1, acc, x :: xs =>
    if i1 + k1 = x.a ∧ j1 + k1 = x.b then
      mergeAdj i1 j1 (k1 + x.size) acc xs
    else
      mergeAdj x.a x.b x.size (if k1 ≠ 0 then acc ++ [Block.mk i1 j1 k1] else acc) xs

/-- `SequenceMatcher.get_matching_blocks()`, terminating sentinel
included. -/
def getMatchingBlocks (a b : List Char) : List Block :=
  let found := mbLoop a b (a.length + b.length + 1) [Rect.mk 0 a.length 0 b.length] []
  mergeAdj 0 0 0 [] (sortBlocks found) ++ [Block.mk a.length b.length 0]

/-- Opcode tags of `get_opcodes`. -/
inductive Tag where
  | equal
  | replace
  | delete
  | insert
deriving DecidableEq, Repr

/-- One `(tag, i1, i2, j1, j2)` opcode. -/
structure Opcode where
  tag : Tag
  i1 : Nat
  i2 : Nat
  j1 : Nat
  j2 : Nat
deriving DecidableEq, Repr

/-- The loop of `get_opcodes()` over the matching blocks, carrying the
current `(i, j)` position. -/
def opGo : Nat → Nat → List Block → List Opcode
  | _, _, [] => []
  | i, j, x :: xs =>
    let pre : List Opcode :=
      if i < x.a ∧ j < x.b then [Opcode.mk Tag.replace i x.a j x.b]
      else if i < x.a then [Opcode.mk Tag.delete i x.a j x.b]
      else if j < x.b then [Opcode.mk Tag.insert i x.a j x.b]
      else []
    let eqs : List Opcode :=
      if x.size ≠ 0 then [Opcode.mk Tag.equal x.a (x.a + x.size) x.b (x.b + x.size)] else []
    pre ++ eqs ++ opGo (x.a + x.size) (x.b + x.size) xs

/-- `SequenceMatcher.get_opcodes()`. -/
def getOpcodes (a b : List Char) : List Opcode :=
  opGo 0 0 (getMatchingBlocks a b)

/-- A changed span of the output text with the original text it replaced
(`tag_map` entry of `apply_diff_highlight`). -/
structure ChangedSpan where
  outputStart : Nat
  outputEnd : Nat
  originalText : String
deriving DecidableEq, Repr

/-- The tooltip text: `before if len(before) <= 160 else before[:160] + "…"`. -/
def truncDisp (before : List Char) : String :=
  if before.length ≤ 160 then String.mk before
  else String.mk (before.take 160 ++ ['…'])

/-- Span emission of `apply_diff_highlight` for one opcode: `equal` is
skipped, a `replace`/`insert` with `j1 != j2` yields one span over
`original[i1:i2]`, everything else (`delete`) yields nothing. -/
def emitSpan (original : List Char) (op : Opcode) : Option ChangedSpan :=
  if op.tag = Tag.equal then none
  else if (op.tag = Tag.replace ∨ op.tag = Tag.insert) ∧ op.j1 ≠ op.j2 then
    some (ChangedSpan.mk op.j1 op.j2 (truncDisp ((original.take op.i2).drop op.i1)))
  else none

/-- `App.apply_diff_highlight(original, modified)`, as the ordered list of
highlighted spans with their tooltip texts. -/
def applyDiffHighlight (original modified : List Char) : List ChangedSpan :=
  (getOpcodes original modified).filterMap (emitSpan original)

/-- The spec's `computeChanges(original, modified)`. -/
def computeChanges (original modified : String) : List ChangedSpan :=
  applyDiffHighlight original.data modified.data

/-- Modelled from the spec: the per-opcode emission rule of §4.3 stated in
the spec's own words (one span per `replace`/`insert` opcode with a
non-empty output range, `outputStart=j1`, `outputEnd=j2`, `originalText` the
truncated source slice `original[i1:i2]`; `equal`/`delete` emit nothing).
Used only to compare against `emitSpan`, which is translated from the
code. -/
def specEmitSpan (original : List Char) (op : Opcode) : Option ChangedSpan :=
  if (op.tag = Tag.replace ∨ op.tag = Tag.insert) ∧ op.j1 < op.j2 then
    some (ChangedSpan.mk op.j1 op.j2 (truncDisp ((original.take op.i2).drop op.i1)))
  else none

/-! ## Proof-support predicates -/

/-- Invariant of the `j2len` dictionaries inside `find_longest_match`: an
entry `(j, k)` records a diagonal run of `k` matched characters ending at
column `j`, lying inside the `[blo, bhi)` window and starting no earlier
than row `alo`; `bound` is one past the row the map was built at. -/
def MapOK (alo blo bhi bound : Nat) (m : List (Nat × Nat)) : Prop :=
  ∀ j k, m.lookup j = some k → blo ≤ j ∧ j < bhi ∧ k + alo ≤ bound ∧ k + blo ≤ j + 1

/-- Invariant of the `find_longest_match` candidate: the match lies inside
the `[alo, ahi) × [blo, bhi)` rectangle, and a size-0 candidate is still
the initial `(alo, blo, 0)`. -/
def BestOK (alo ahi blo bhi : Nat) (s : FlmState) : Prop :=
  alo ≤ s.besti ∧ blo ≤ s.bestj ∧
  (s.bestsize = 0 → s.besti = alo ∧ s.bestj = blo) ∧
  (1 ≤ s.bestsize → s.besti + s.bestsize ≤ ahi ∧ s.bestj + s.bestsize ≤ bhi)

/-- Block `x` ends (in both coordinates) before block `y` starts. -/
def ChainBefore (x y : Block) : Prop :=
  x.a + x.size ≤ y.a ∧ x.b + x.size ≤ y.b

/-- Two blocks are completely on one side of each other in both
coordinates. -/
def BlockSep (x y : Block) : Prop :=
  ChainBefore x y ∨ ChainBefore y x

/-- Two queue rectangles are completely on one side of each other in both
coordinates. -/
def RectSep (r q : Rect) : Prop :=
  (r.ahi ≤ q.alo ∧ r.bhi ≤ q.blo) ∨ (q.ahi ≤ r.alo ∧ q.bhi ≤ r.blo)

/-- A rectangle and a block are completely on one side of each other in
both coordinates. -/
def RectBlockSep (r : Rect) (x : Block) : Prop :=
  (r.ahi ≤ x.a ∧ r.bhi ≤ x.b) ∨ (x.a + x.size ≤ r.alo ∧ x.b + x.size ≤ r.blo)

/-- A block fits inside the global `la × lb` rectangle. -/
def BlockBounded (la lb : Nat) (x : Block) : Prop :=
  x.a + x.size ≤ la ∧ x.b + x.size ≤ lb

/-- A rectangle fits inside the global `la × lb` rectangle. -/
def RectBounded (la lb : Nat) (r : Rect) : Prop :=
  r.ahi ≤ la ∧ r.bhi ≤ lb

/-- Loop invariant of the `get_matching_blocks` stack loop. -/
def MBInv (la lb : Nat) (queue : List Rect) (found : List Block) : Prop :=
  queue.Pairwise RectSep ∧ found.Pairwise BlockSep ∧
  (∀ r ∈ queue, ∀ x ∈ found, RectBlockSep r x) ∧
  (∀ r ∈ queue, RectBounded la lb r) ∧
  (∀ x ∈ found, 1 ≤ x.size ∧ BlockBounded la lb x)

/-- The block list is a forward walk starting at position `(i, j)`: each
block starts at or after the current position and advances it to its
end. -/
def ChainFrom : Nat → Nat → List Block → Prop
  | _, _, [] => True
  | i, j, x :: xs => i ≤ x.a ∧ j ≤ x.b ∧ ChainFrom (x.a + x.size) (x.b + x.size) xs

/-! ## Store lemmas -/

theorem tryMigrate_default (l : LegacyFile) (d : Dicts)
    (h : DictStore.tryMigrateFromOld l = some d) : containsKey d "default" = true := by
  cases l with
  | absent => simp [DictStore.tryMigrateFromOld] at h
  | corrupt => simp [DictStore.tryMigrateFromOld] at h
  | parsed es =>
    simp only [DictStore.tryMigrateFromOld] at h
    cases hp : parseRules es with
    | none => rw [hp] at h; simp at h
    | some rs =>
      rw [hp] at h
      simp only [Option.some.injEq] at h
      subst h
      simp [containsKey]

theorem containsKey_filterOut (d : Dicts) (name : String) :
    containsKey (d.filter (fun p => !(p.1 == name))) name = false := by
  induction d with
  | nil => rfl
  | cons p rest ih =>
    cases hp : (p.1 == name) with
    | true => simpa [List.filter_cons, hp] using ih
    | false =>
      simp only [List.filter_cons, hp, Bool.not_false, if_true]
      simp only [containsKey, List.any_cons, hp, Bool.false_or]
      simp only [containsKey] at ih
      exact ih

theorem containsKey_append (d1 d2 : Dicts) (name : String) :
    containsKey (d1 ++ d2) name = (containsKey d1 name || containsKey d2 name) := by
  simp [containsKey, List.any_append]

theorem parseRules_malformed (rs1 rs2 : List RawEntry) :
    parseRules (rs1 ++ RawEntry.malformed :: rs2) = none := by
  induction rs1 with
  | nil => rfl
  | cons e rest ih =>
    cases e with
    | ok r => simp [parseRules, ih]
    | malformed => rfl

theorem parseDictsGo_malformed (post : List (String × List RawEntry))
    (n : String) (rs1 rs2 : List RawEntry) :
    ∀ (pre : List (String × List RawEntry)) (acc : Dicts),
      parseDictsGo acc (pre ++ (n, rs1 ++ RawEntry.malformed :: rs2) :: post) = none := by
  intro pre
  induction pre with
  | nil => intro acc; simp [parseDictsGo, parseRules_malformed]
  | cons q rest ih =>
    intro acc
    simp only [List.cons_append, parseDictsGo]
    cases hq : parseRules q.2 with
    | none => rfl
    | some rs => exact ih _

/-! ## C1: `"default"` after `load()` -/

/-- C1 counterexample: the claim says the mapping contains `"default"`
after `load()` for every store-file content, but a parseable current-format
file whose non-empty `dicts` mapping has no `"default"` entry is loaded
verbatim, without a `"default"` dictionary. -/
theorem C1_counterexample :
    containsKey (DictStore.load (StoreFile.parsed [("foo", [])]) LegacyFile.absent).dicts
      "default" = false := by
  decide

/-- C1 (amended): after `load()` the mapping contains `"default"` when the
store file is absent (with or without a legacy file), unparsable, fails
rule parsing, or parses to an empty `dicts` mapping; but when it parses to
a non-empty mapping the mapping is taken verbatim, so `"default"` is
present afterwards iff the file had such an entry. -/
theorem C1_default_after_load (legacy : LegacyFile)
    (entries : List (String × List RawEntry)) :
    containsKey (DictStore.load StoreFile.absent legacy).dicts "default" = true ∧
    containsKey (DictStore.load StoreFile.corrupt legacy).dicts "default" = true ∧
    (parseDictsGo [] entries = none →
      containsKey (DictStore.load (StoreFile.parsed entries) legacy).dicts "default" = true) ∧
    (∀ out, parseDictsGo [] entries = some out → out.isEmpty = true →
      containsKey (DictStore.load (StoreFile.parsed entries) legacy).dicts "default" = true) ∧
    (∀ out, parseDictsGo [] entries = some out → out.isEmpty = false →
      (DictStore.load (StoreFile.parsed entries) legacy).dicts = out ∧
      containsKey (DictStore.load (StoreFile.parsed entries) legacy).dicts "default" =
        containsKey out "default") := by
  refine ⟨?_, ?_, ?_, ?_, ?_⟩
  · simp only [DictStore.load]
    cases hm : DictStore.tryMigrateFromOld legacy with
    | none => simp [containsKey]
    | some d => simpa using tryMigrate_default legacy d hm
  · simp [DictStore.load, containsKey]
  · intro h; simp [DictStore.load, h, containsKey]
  · intro out h hempty; simp [DictStore.load, h, hempty, containsKey]
  · intro out h hempty
    constructor <;> simp [DictStore.load, h, hempty]

theorem C1_default_after_load_witness :
    (DictStore.load (StoreFile.parsed [("foo", [])]) LegacyFile.absent).dicts = [("foo", [])] ∧
    containsKey [("foo", [])] "default" = false :=
  ⟨((C1_default_after_load LegacyFile.absent [("foo", [])]).2.2.2.2 [("foo", [])]
      (by decide) (by decide)).1, by decide⟩

/-! ## C8: `delete` -/

/-- C8: `delete(name)` refuses `"default"` and absent names without
mutating the store; otherwise it removes the dictionary and reports
success; if `"default"` was present before, it is still present after any
call. -/
theorem C8_delete_spec (d : Dicts) (name : String)
    (hd : containsKey d "default" = true) :
    ((name = "default" ∨ containsKey d name = false) → DictStore.delete d name = (d, false)) ∧
    (name ≠ "default" → containsKey d name = true →
      (DictStore.delete d name).2 = true ∧
      containsKey (DictStore.delete d name).1 name = false) ∧
    containsKey (DictStore.delete d name).1 "default" = true := by
  by_cases hnm : name = "default"
  · subst hnm
    refine ⟨fun _ => by simp [DictStore.delete], fun h => absurd rfl h, ?_⟩
    simpa [DictStore.delete] using hd
  · cases hc : containsKey d name with
    | false =>
      refine ⟨fun _ => by simp [DictStore.delete, hnm, hc], ?_, ?_⟩
      · intro _ h; simp at h
      · simpa [DictStore.delete, hnm, hc] using hd
    | true =>
      have hres : DictStore.delete d name =
          (let d1 := d.filter (fun p => !(p.1 == name));
           (if containsKey d1 "default" then d1 else d1 ++ [("default", [])], true)) := by
        simp [DictStore.delete, hnm, hc]
      refine ⟨?_, fun _ _ => ⟨by simp [hres], ?_⟩, ?_⟩
      · rintro (h | h)
        · exact absurd h hnm
        · simp at h
      · rw [hres]
        simp only []
        split
        · exact containsKey_filterOut d name
        · rw [containsKey_append, containsKey_filterOut]
          simp [containsKey, Ne.symm hnm]
      · rw [hres]
        simp only []
        split
        · assumption
        · rw [containsKey_append]
          simp [containsKey]

theorem C8_delete_spec_witness :
    (DictStore.delete [("default", []), ("x", [])] "x").2 = true ∧
    containsKey (DictStore.delete [("default", []), ("x", [])] "x").1 "x" = false ∧
    containsKey (DictStore.delete [("default", []), ("x", [])] "x").1 "default" = true := by
  have h := C8_delete_spec [("default", []), ("x", [])] "x" (by decide)
  exact ⟨(h.2.1 (by decide) (by decide)).1, (h.2.1 (by decide) (by decide)).2, h.2.2⟩

/-! ## C9: legacy migration -/

/-- C9: with no current-format store and a legacy file
`[{"enabled":true,"src":"a","dst":"b"}]`, `load()` migrates into
`"default"` (so `rulesOf("default") = [{true,"a","b"}]`), saves the new
format immediately, leaves the legacy file untouched, and a subsequent
`load()` reads only the new store (its result never depends on the legacy
file once the store file exists). -/
theorem C9_migration :
    (DictStore.get_rules
      (loadFS (FS.mk StoreFile.absent
        (LegacyFile.parsed [RawEntry.ok (RawRule.mk (some true) (some "a") (some "b"))]))).1.dicts
      "default").1 = [Rule.mk true "a" "b"] ∧
    (loadFS (FS.mk StoreFile.absent
      (LegacyFile.parsed [RawEntry.ok (RawRule.mk (some true) (some "a") (some "b"))]))).1.savedStore
      = true ∧
    (loadFS (FS.mk StoreFile.absent
      (LegacyFile.parsed [RawEntry.ok (RawRule.mk (some true) (some "a") (some "b"))]))).2.legacy
      = LegacyFile.parsed [RawEntry.ok (RawRule.mk (some true) (some "a") (some "b"))] ∧
    (loadFS ((loadFS (FS.mk StoreFile.absent
      (LegacyFile.parsed [RawEntry.ok (RawRule.mk (some true) (some "a") (some "b"))]))).2)).1 =
      LoadResult.mk [("default", [Rule.mk true "a" "b"])] false ∧
    (∀ (st : StoreFile) (l l' : LegacyFile), st ≠ StoreFile.absent →
      DictStore.load st l = DictStore.load st l') := by
  refine ⟨by decide, by decide, by decide, by decide, ?_⟩
  intro st l l' hst
  cases st with
  | absent => exact absurd rfl hst
  | corrupt => rfl
  | parsed entries => rfl

theorem C9_migration_witness :
    DictStore.load StoreFile.corrupt (LegacyFile.parsed [RawEntry.malformed]) =
      DictStore.load StoreFile.corrupt LegacyFile.absent :=
  C9_migration.2.2.2.2 StoreFile.corrupt (LegacyFile.parsed [RawEntry.malformed])
    LegacyFile.absent (by decide)

/-! ## C10: corrupt store handling -/

/-- C10: an unparsable store file makes `load()` reset only the in-memory
mapping to `{"default": []}` with no write (the file system is returned
unchanged and `save()` did not run); a single malformed rule entry
anywhere in a parseable file aborts the whole parse the same way,
discarding the entire stored mapping in memory. -/
theorem C10_corrupt_reset (l : LegacyFile) (pre post : List (String × List RawEntry))
    (n : String) (rs1 rs2 : List RawEntry) :
    loadFS (FS.mk StoreFile.corrupt l) =
      (LoadResult.mk [("default", [])] false, FS.mk StoreFile.corrupt l) ∧
    parseRules (rs1 ++ RawEntry.malformed :: rs2) = none ∧
    loadFS (FS.mk (StoreFile.parsed (pre ++ (n, rs1 ++ RawEntry.malformed :: rs2) :: post)) l) =
      (LoadResult.mk [("default", [])] false,
        FS.mk (StoreFile.parsed (pre ++ (n, rs1 ++ RawEntry.malformed :: rs2) :: post)) l) := by
  refine ⟨rfl, parseRules_malformed rs1 rs2, ?_⟩
  have h := parseDictsGo_malformed post n rs1 rs2 pre []
  simp [loadFS, DictStore.load, h]

/-! ## Replacement-engine lemmas -/

theorem foldl_append_filter_nil (p : Rule → Bool) :
    ∀ (l : List (List Rule)) (acc : List Rule),
      (∀ rs ∈ l, ∀ r ∈ rs, ¬ p r = true) →
      List.foldl (fun acc rs => acc ++ rs.filter p) acc l = acc := by
  intro l
  induction l with
  | nil => intro acc _; rfl
  | cons rs rest ih =>
    intro acc h
    have hf : rs.filter p = [] := by
      rw [List.filter_eq_nil_iff]
      intro r hr
      exact h rs (by simp) r hr
    simp only [List.foldl_cons, hf, List.append_nil]
    exact ih acc (fun rs' h' r hr => h rs' (by simp [h']) r hr)

theorem flattenActive_eq_nil (dicts : List (List Rule))
    (h : ∀ rs ∈ dicts, ∀ r ∈ rs, ¬(r.enabled = true ∧ r.src ≠ "")) :
    flattenActive dicts = [] := by
  unfold flattenActive
  apply foldl_append_filter_nil
  intro rs hrs r hr hp
  apply h rs hrs r hr
  simp only [Bool.and_eq_true, bne_iff_ne] at hp
  exact hp

theorem replaceFuel_congr (pat dst : List Char) :
    ∀ (f g : Nat) (s : List Char), s.length ≤ f → s.length ≤ g →
      replaceFuel pat dst f s = replaceFuel pat dst g s := by
  intro f
  induction f with
  | zero =>
    intro g s hf _
    have hs : s = [] := List.eq_nil_of_length_eq_zero (Nat.le_zero.mp hf)
    subst hs
    cases g <;> rfl
  | succ f ih =>
    intro g s hf hg
    cases g with
    | zero =>
      have hs : s = [] := List.eq_nil_of_length_eq_zero (Nat.le_zero.mp hg)
      subst hs; rfl
    | succ g =>
      cases s with
      | nil => rfl
      | cons c rest =>
        have hf' : rest.length ≤ f := by simp at hf; omega
        have hg' : rest.length ≤ g := by simp at hg; omega
        simp only [replaceFuel]
        by_cases hc : pat ≠ [] ∧ pat.isPrefixOf (c :: rest)
        · rw [if_pos hc, if_pos hc]
          have hplen : 1 ≤ pat.length := by
            cases pat with
            | nil => exact absurd rfl hc.1
            | cons _ _ => simp
          have hd1 : ((c :: rest).drop pat.length).length ≤ f := by
            simp only [List.length_drop, List.length_cons]; omega
          have hd2 : ((c :: rest).drop pat.length).length ≤ g := by
            simp only [List.length_drop, List.length_cons]; omega
          rw [ih g _ hd1 hd2]
        · rw [if_neg hc, if_neg hc, ih g rest hf' hg']

theorem isPrefixOf_append_self (l r : List Char) : l.isPrefixOf (l ++ r) = true := by
  induction l with
  | nil => simp [List.isPrefixOf]
  | cons a as ih => simp [List.isPrefixOf, ih]

theorem replace_head (pat rest dst : List Char) (hp : pat ≠ []) :
    replaceFuel pat dst (pat ++ rest).length (pat ++ rest) =
      dst ++ replaceFuel pat dst rest.length rest := by
  cases pat with
  | nil => exact absurd rfl hp
  | cons c pr =>
    have hlen : ((c :: pr) ++ rest).length = ((pr ++ rest).length) + 1 := by simp
    rw [hlen]
    show replaceFuel (c :: pr) dst ((pr ++ rest).length + 1) (c :: (pr ++ rest)) = _
    simp only [replaceFuel]
    rw [if_pos ⟨by simp, by
      have h := isPrefixOf_append_self (c :: pr) rest
      simp only [List.cons_append] at h
      exact h⟩]
    have hdrop : (c :: (pr ++ rest)).drop (c :: pr).length = rest := by
      have h := List.drop_left (c :: pr) rest
      simp only [List.cons_append] at h
      exact h
    rw [hdrop]
    congr 1
    exact replaceFuel_congr (c :: pr) dst _ _ rest (by simp) (Nat.le_refl _)

/-! ## C4: no active rules -/

/-- C4: when no rule of the selected dictionaries is both enabled and has
a non-empty `src`, the replacement reports `NoActiveRules` (`none`) instead
of raising, and the previous output buffer is returned unchanged, for
every input text. -/
theorem C4_no_active_rules (dicts : List (List Rule)) (text prev : String)
    (h : ∀ rs ∈ dicts, ∀ r ∈ rs, ¬(r.enabled = true ∧ r.src ≠ "")) :
    doReplace dicts text = none ∧ doReplaceImpl dicts text prev = (prev, false) := by
  have hf := flattenActive_eq_nil dicts h
  exact ⟨by simp [doReplace, hf], by simp [doReplaceImpl, doReplace, hf]⟩

theorem C4_no_active_rules_witness :
    doReplace [[Rule.mk false "x" "y"]] "any input" = none ∧
    doReplaceImpl [[Rule.mk false "x" "y"]] "any input" "previous output" =
      ("previous output", false) :=
  C4_no_active_rules [[Rule.mk false "x" "y"]] "any input" "previous output" (by decide)

/-! ## C3: ordered cascading replacement -/

/-- C3: rules are applied strictly in order, each replacing every
non-overlapping left-to-right occurrence in the current text before the
next rule runs (so later rules see earlier rules' insertions); in
particular `[{true,"a","ab"}, {true,"b","c"}]` on `"a"` gives `"ac"` via
the intermediate `"ab"`.  The last two conjuncts state the order of
application and the leftmost-occurrence replacement step in general. -/
theorem C3_cascading_order :
    doReplace [[Rule.mk true "a" "ab", Rule.mk true "b" "c"]] "a" = some "ac" ∧
    doReplace [[Rule.mk true "a" "ab"]] "a" = some "ab" ∧
    (∀ (r : Rule) (rules : List Rule) (text : String),
      applySeq (r :: rules) text = applySeq rules (pyReplace text r.src r.dst)) ∧
    (∀ (pat rest dst : List Char), pat ≠ [] →
      replaceFuel pat dst (pat ++ rest).length (pat ++ rest) =
        dst ++ replaceFuel pat dst rest.length rest) :=
  ⟨by decide, by decide, fun _ _ _ => rfl, replace_head⟩

theorem C3_cascading_order_witness :
    replaceFuel ['a'] ['x', 'y'] ((['a'] ++ ['b', 'a']).length) (['a'] ++ ['b', 'a']) =
      ['x', 'y'] ++ replaceFuel ['a'] ['x', 'y'] (['b', 'a'] : List Char).length ['b', 'a'] :=
  C3_cascading_order.2.2.2 ['a'] ['b', 'a'] ['x', 'y'] (by decide)

/-! ## C7: highlighter deduplication -/

/-- C7: two selected dictionaries each holding an enabled rule with the
same `src = "cat"` contribute a single pattern: the emitted spans equal
those of a single such dictionary, namely the non-overlapping
left-to-right occurrence scan of `"cat"` over the text (one span per
occurrence, not two). -/
theorem C7_highlight_dedup (text : String) :
    computeHighlights [[Rule.mk true "cat" "dog"], [Rule.mk true "cat" "meow"]] text.data =
      computeHighlights [[Rule.mk true "cat" "dog"]] text.data ∧
    computeHighlights [[Rule.mk true "cat" "dog"], [Rule.mk true "cat" "meow"]] text.data =
      scanOccs text.data "cat".data (text.data.length + 1) 0 :=
  ⟨rfl, rfl⟩

/-! ## C2: end-to-end example -/

set_option maxRecDepth 100000 in
/-- C2 counterexample: on
`default = [{true,"cat","dog"}]` applied to `"cat sat on a cat"`, the
second changed span is `{13,16,"cat"}` (the second `"cat"` starts at
offset 13), not `{12,15,"cat"}` as the claim states. -/
theorem C2_counterexample :
    computeChanges "cat sat on a cat" "dog sat on a dog" ≠
      [ChangedSpan.mk 0 3 "cat", ChangedSpan.mk 12 15 "cat"] := by
  decide

set_option maxRecDepth 100000 in
/-- C2 (amended): the replacement output is `"dog sat on a dog"` and
`computeChanges` yields exactly the two spans `{0,3,"cat"}` and
`{13,16,"cat"}`. -/
theorem C2_example :
    doReplace [[Rule.mk true "cat" "dog"]] "cat sat on a cat" = some "dog sat on a dog" ∧
    computeChanges "cat sat on a cat" "dog sat on a dog" =
      [ChangedSpan.mk 0 3 "cat", ChangedSpan.mk 13 16 "cat"] :=
  ⟨by decide, by decide⟩

/-! ## `find_longest_match` invariants -/

theorem flmRow_ok {alo ahi blo bhi i : Nat} (prev : List (Nat × Nat))
    (hprev : MapOK alo blo bhi i prev) (hi1 : alo ≤ i) (hi2 : i < ahi) :
    ∀ (js : List Nat) (acc : List (Nat × Nat)) (best : FlmState),
      MapOK alo blo bhi (i + 1) acc → BestOK alo ahi blo bhi best →
      MapOK alo blo bhi (i + 1) (flmRow blo bhi i prev js acc best).1 ∧
      BestOK alo ahi blo bhi (flmRow blo bhi i prev js acc best).2 := by
  intro js
  induction js with
  | nil => intro acc best hacc hbest; exact ⟨hacc, hbest⟩
  | cons j js ih =>
    intro acc best hacc hbest
    by_cases h1 : j < blo
    · simp only [flmRow, if_pos h1]
      exact ih acc best hacc hbest
    · by_cases h2 : bhi ≤ j
      · simp only [flmRow, if_neg h1, if_pos h2]
        exact ⟨hacc, hbest⟩
      · have hblo : blo ≤ j := Nat.le_of_not_lt h1
        have hbhi : j < bhi := Nat.lt_of_not_le h2
        simp only [flmRow, if_neg h1, if_neg h2]
        set kk : Nat := (if j = 0 then 0 else jget prev (j - 1)) + 1 with hkdef
        have hk : kk + alo ≤ i + 1 ∧ kk + blo ≤ j + 1 := by
          rw [hkdef]
          by_cases hj0 : j = 0
          · rw [if_pos hj0]
            omega
          · rw [if_neg hj0]
            unfold jget
            cases hl : prev.lookup (j - 1) with
            | none => simp only [Option.getD_none]; omega
            | some k0 =>
              have hb := hprev (j - 1) k0 hl
              simp only [Option.getD_some]
              omega
        have hacc' : MapOK alo blo bhi (i + 1) ((j, kk) :: acc) := by
          intro j' k' hlook
          simp only [List.lookup] at hlook
          by_cases hj : j' = j
          · subst hj
            simp only [beq_self_eq_true, Option.some.injEq] at hlook
            subst hlook
            exact ⟨hblo, hbhi, hk.1, hk.2⟩
          · have hne : (j' == j) = false := beq_eq_false_iff_ne.mpr hj
            simp only [hne] at hlook
            exact hacc j' k' hlook
        have hbest' : BestOK alo ahi blo bhi
            (if best.bestsize < kk then FlmState.mk (i + 1 - kk) (j + 1 - kk) kk
             else best) := by
          by_cases hlt : best.bestsize < kk
          · rw [if_pos hlt]
            refine ⟨?_, ?_, ?_, ?_⟩
            · show alo ≤ i + 1 - kk
              omega
            · show blo ≤ j + 1 - kk
              omega
            · intro h0
              exfalso
              have hz : kk = 0 := h0
              omega
            · intro _
              constructor
              · show i + 1 - kk + kk ≤ ahi
                omega
              · show j + 1 - kk + kk ≤ bhi
                omega
          · rw [if_neg hlt]
            exact hbest
        exact ih ((j, kk) :: acc) _ hacc' hbest'

theorem flmRows_ok {a b : List Char} {alo ahi blo bhi : Nat} :
    ∀ (n s : Nat) (prev : List (Nat × Nat)) (best : FlmState),
      alo ≤ s → s + n ≤ ahi → MapOK alo blo bhi s prev → BestOK alo ahi blo bhi best →
      BestOK alo ahi blo bhi (flmRows a b blo bhi (List.range' s n) prev best) := by
  intro n
  induction n with
  | zero => intro s prev best _ _ _ hbest; exact hbest
  | succ n ih =>
    intro s prev best hs hn hprev hbest
    have hrow := @flmRow_ok alo ahi blo bhi s prev hprev hs (by omega)
      (match a.get? s with | some c => b2jOf b c | none => []) [] best
      (fun j k h => by simp [List.lookup] at h) hbest
    have hrec := ih (s + 1) _ _ (by omega) (by omega) hrow.1 hrow.2
    simpa only [List.range'_succ, flmRows] using hrec

theorem extendBack_ok {a b : List Char} {keep : Char → Bool} {alo ahi blo bhi : Nat} :
    ∀ (fuel : Nat) (s : FlmState), BestOK alo ahi blo bhi s →
      BestOK alo ahi blo bhi (extendBack a b keep alo blo fuel s) := by
  intro fuel
  induction fuel with
  | zero => intro s hs; exact hs
  | succ fuel ih =>
    intro s hs
    by_cases hc : (decide (alo < s.besti) && decide (blo < s.bestj) &&
        extendCond a b keep (s.besti - 1) (s.bestj - 1)) = true
    · have hc' := hc
      rw [Bool.and_eq_true, Bool.and_eq_true] at hc'
      have h1 : alo < s.besti := of_decide_eq_true hc'.1.1
      have h2 : blo < s.bestj := of_decide_eq_true hc'.1.2
      have hsz : 1 ≤ s.bestsize := by
        rcases Nat.eq_zero_or_pos s.bestsize with h0 | h0
        · have := (hs.2.2.1 h0).1
          omega
        · exact h0
      have hnew : BestOK alo ahi blo bhi
          (FlmState.mk (s.besti - 1) (s.bestj - 1) (s.bestsize + 1)) := by
        obtain ⟨ha1, ha2, _, ha4⟩ := hs
        have hb := ha4 hsz
        refine ⟨?_, ?_, ?_, ?_⟩
        · show alo ≤ s.besti - 1
          omega
        · show blo ≤ s.bestj - 1
          omega
        · intro h0
          exfalso
          have hz : s.bestsize + 1 = 0 := h0
          omega
        · intro _
          constructor
          · show s.besti - 1 + (s.bestsize + 1) ≤ ahi
            omega
          · show s.bestj - 1 + (s.bestsize + 1) ≤ bhi
            omega
      have := ih _ hnew
      simpa only [extendBack, if_pos hc] using this
    · simpa only [extendBack, if_neg hc] using hs

theorem extendFwd_ok {a b : List Char} {keep : Char → Bool} {alo ahi blo bhi : Nat} :
    ∀ (fuel : Nat) (s : FlmState), BestOK alo ahi blo bhi s →
      BestOK alo ahi blo bhi (extendFwd a b keep ahi bhi fuel s) := by
  intro fuel
  induction fuel with
  | zero => intro s hs; exact hs
  | succ fuel ih =>
    intro s hs
    by_cases hc : (decide (s.besti + s.bestsize < ahi) && decide (s.bestj + s.bestsize < bhi) &&
        extendCond a b keep (s.besti + s.bestsize) (s.bestj + s.bestsize)) = true
    · have hc' := hc
      rw [Bool.and_eq_true, Bool.and_eq_true] at hc'
      have h1 : s.besti + s.bestsize < ahi := of_decide_eq_true hc'.1.1
      have h2 : s.bestj + s.bestsize < bhi := of_decide_eq_true hc'.1.2
      have hnew : BestOK alo ahi blo bhi (FlmState.mk s.besti s.bestj (s.bestsize + 1)) := by
        obtain ⟨ha1, ha2, _, _⟩ := hs
        refine ⟨ha1, ha2, ?_, ?_⟩
        · intro h0
          exfalso
          have hz : s.bestsize + 1 = 0 := h0
          omega
        · intro _
          constructor
          · show s.besti + (s.bestsize + 1) ≤ ahi
            omega
          · show s.bestj + (s.bestsize + 1) ≤ bhi
            omega
      have := ih _ hnew
      simpa only [extendFwd, if_pos hc] using this
    · simpa only [extendFwd, if_neg hc] using hs

theorem findLongestMatch_ok (a b : List Char) (alo ahi blo bhi : Nat) :
    BestOK alo ahi blo bhi (findLongestMatch a b alo ahi blo bhi) := by
  have hinit : BestOK alo ahi blo bhi (FlmState.mk alo blo 0) :=
    ⟨Nat.le_refl _, Nat.le_refl _, fun _ => ⟨rfl, rfl⟩,
      fun h => (Nat.not_succ_le_zero 0 h).elim⟩
  have hrows : BestOK alo ahi blo bhi
      (flmRows a b blo bhi (List.range' alo (ahi - alo)) [] (FlmState.mk alo blo 0)) := by
    rcases Nat.lt_or_ge ahi alo with h | h
    · have hz : ahi - alo = 0 := by omega
      rw [hz]
      exact hinit
    · exact flmRows_ok (ahi - alo) alo [] _ (Nat.le_refl _) (by omega)
        (fun j k hl => by simp [List.lookup] at hl) hinit
  unfold findLongestMatch
  exact extendFwd_ok _ _ (extendBack_ok _ _ (extendFwd_ok _ _ (extendBack_ok _ _ hrows)))

/-! ## `get_matching_blocks` invariants -/

theorem mem_ite_singleton {α : Type} {c : Prop} [Decidable c] {y x : α}
    (h : x ∈ (if c then [y] else ([] : List α))) : x = y ∧ c := by
  by_cases hc : c
  · rw [if_pos hc] at h
    simp only [List.mem_singleton] at h
    exact ⟨h, hc⟩
  · rw [if_neg hc] at h
    simp at h

theorem pairwise_ite_singleton {α : Type} {c : Prop} [Decidable c] {y : α}
    (R : α → α → Prop) : (if c then [y] else ([] : List α)).Pairwise R := by
  split
  · exact List.pairwise_singleton R y
  · exact List.Pairwise.nil

theorem rectSep_of_sub {r r' q : Rect}
    (h1 : r.alo ≤ r'.alo) (h2 : r'.ahi ≤ r.ahi) (h3 : r.blo ≤ r'.blo) (h4 : r'.bhi ≤ r.bhi)
    (h : RectSep r q) : RectSep r' q := by
  unfold RectSep at h ⊢
  rcases h with ⟨ha, hb⟩ | ⟨ha, hb⟩
  · exact Or.inl ⟨by omega, by omega⟩
  · exact Or.inr ⟨by omega, by omega⟩

theorem rectBlockSep_of_sub {r r' : Rect} {x : Block}
    (h1 : r.alo ≤ r'.alo) (h2 : r'.ahi ≤ r.ahi) (h3 : r.blo ≤ r'.blo) (h4 : r'.bhi ≤ r.bhi)
    (h : RectBlockSep r x) : RectBlockSep r' x := by
  unfold RectBlockSep at h ⊢
  rcases h with ⟨ha, hb⟩ | ⟨ha, hb⟩
  · exact Or.inl ⟨by omega, by omega⟩
  · exact Or.inr ⟨by omega, by omega⟩

theorem mbLoop_cons (a b : List Char) (fuel : Nat) (r : Rect) (rest : List Rect)
    (found : List Block) :
    mbLoop a b (fuel + 1) (r :: rest) found =
      (if (findLongestMatch a b r.alo r.ahi r.blo r.bhi).bestsize = 0 then
        mbLoop a b fuel rest found
      else
        mbLoop a b fuel
          ((if (findLongestMatch a b r.alo r.ahi r.blo r.bhi).besti +
                (findLongestMatch a b r.alo r.ahi r.blo r.bhi).bestsize < r.ahi ∧
              (findLongestMatch a b r.alo r.ahi r.blo r.bhi).bestj +
                (findLongestMatch a b r.alo r.ahi r.blo r.bhi).bestsize < r.bhi then
             [Rect.mk
               ((findLongestMatch a b r.alo r.ahi r.blo r.bhi).besti +
                 (findLongestMatch a b r.alo r.ahi r.blo r.bhi).bestsize) r.ahi
               ((findLongestMatch a b r.alo r.ahi r.blo r.bhi).bestj +
                 (findLongestMatch a b r.alo r.ahi r.blo r.bhi).bestsize) r.bhi]
           else []) ++
           (if r.alo < (findLongestMatch a b r.alo r.ahi r.blo r.bhi).besti ∧
              r.blo < (findLongestMatch a b r.alo r.ahi r.blo r.bhi).bestj then
             [Rect.mk r.alo (findLongestMatch a b r.alo r.ahi r.blo r.bhi).besti r.blo
               (findLongestMatch a b r.alo r.ahi r.blo r.bhi).bestj]
           else []) ++ rest)
          (found ++ [Block.mk (findLongestMatch a b r.alo r.ahi r.blo r.bhi).besti
            (findLongestMatch a b r.alo r.ahi r.blo r.bhi).bestj
            (findLongestMatch a b r.alo r.ahi r.blo r.bhi).bestsize])) := rfl

theorem mbLoop_ok {a b : List Char} {la lb : Nat} :
    ∀ (fuel : Nat) (queue : List Rect) (found : List Block),
      MBInv la lb queue found →
      (mbLoop a b fuel queue found).Pairwise BlockSep ∧
      (∀ x ∈ mbLoop a b fuel queue found, 1 ≤ x.size ∧ BlockBounded la lb x) := by
  intro fuel
  induction fuel with
  | zero => intro queue found hinv; exact ⟨hinv.2.1, hinv.2.2.2.2⟩
  | succ fuel ih =>
    intro queue found hinv
    obtain ⟨hq, hfp, hqf, hqb, hfb⟩ := hinv
    cases queue with
    | nil => exact ⟨hfp, hfb⟩
    | cons r rest =>
      rw [mbLoop_cons]
      set s := findLongestMatch a b r.alo r.ahi r.blo r.bhi with hsdef
      have hflm : BestOK r.alo r.ahi r.blo r.bhi s := by
        rw [hsdef]
        exact findLongestMatch_ok a b r.alo r.ahi r.blo r.bhi
      have hrrest : ∀ q ∈ rest, RectSep r q := (List.pairwise_cons.mp hq).1
      have hrestp : rest.Pairwise RectSep := (List.pairwise_cons.mp hq).2
      have hrb : RectBounded la lb r := hqb r (List.mem_cons_self r rest)
      have hrf : ∀ x ∈ found, RectBlockSep r x := hqf r (List.mem_cons_self r rest)
      by_cases hz : s.bestsize = 0
      · rw [if_pos hz]
        exact ih rest found ⟨hrestp, hfp,
          fun q hq' x hx => hqf q (List.mem_cons_of_mem r hq') x hx,
          fun q hq' => hqb q (List.mem_cons_of_mem r hq'), hfb⟩
      · rw [if_neg hz]
        obtain ⟨hba, hbb, _, hbs⟩ := hflm
        have hsz : 1 ≤ s.bestsize := Nat.pos_of_ne_zero hz
        obtain ⟨hia, hib⟩ := hbs hsz
        have hrla : r.ahi ≤ la := hrb.1
        have hrlb : r.bhi ≤ lb := hrb.2
        apply ih
        refine ⟨?_, ?_, ?_, ?_, ?_⟩
        · -- queue pairwise separation
          rw [List.pairwise_append, List.pairwise_append]
          refine ⟨⟨pairwise_ite_singleton _, pairwise_ite_singleton _, ?_⟩, hrestp, ?_⟩
          · intro u hu v hv
            obtain ⟨hu', _⟩ := mem_ite_singleton hu
            obtain ⟨hv', _⟩ := mem_ite_singleton hv
            subst hu'; subst hv'
            unfold RectSep
            dsimp only
            omega
          · intro u hu v hv
            rcases List.mem_append.mp hu with h2 | h1
            · obtain ⟨hu', _⟩ := mem_ite_singleton h2
              subst hu'
              exact rectSep_of_sub (by dsimp only; omega) (by dsimp only; omega)
                (by dsimp only; omega) (by dsimp only; omega) (hrrest v hv)
            · obtain ⟨hu', _⟩ := mem_ite_singleton h1
              subst hu'
              exact rectSep_of_sub (by dsimp only; omega) (by dsimp only; omega)
                (by dsimp only; omega) (by dsimp only; omega) (hrrest v hv)
        · -- found pairwise separation
          rw [List.pairwise_append]
          refine ⟨hfp, List.pairwise_singleton _ _, ?_⟩
          intro y hy x hx
          rw [List.mem_singleton] at hx
          subst hx
          have hsep := hrf y hy
          unfold RectBlockSep at hsep
          unfold BlockSep ChainBefore
          dsimp only
          rcases hsep with ⟨h1, h2⟩ | ⟨h1, h2⟩
          · omega
          · omega
        · -- rect / block separation
          intro q hq' x hx
          have hqcase : q ∈ rest ∨
              (q = Rect.mk r.alo s.besti r.blo s.bestj ∧ r.alo < s.besti ∧ r.blo < s.bestj) ∨
              (q = Rect.mk (s.besti + s.bestsize) r.ahi (s.bestj + s.bestsize) r.bhi ∧
                s.besti + s.bestsize < r.ahi ∧ s.bestj + s.bestsize < r.bhi) := by
            rcases List.mem_append.mp hq' with h' | h'
            · rcases List.mem_append.mp h' with h2 | h1
              · obtain ⟨he, hc⟩ := mem_ite_singleton h2
                exact Or.inr (Or.inr ⟨he, hc⟩)
              · obtain ⟨he, hc⟩ := mem_ite_singleton h1
                exact Or.inr (Or.inl ⟨he, hc⟩)
            · exact Or.inl h'
          rcases List.mem_append.mp hx with hy | hx0
          · -- x is an old block
            rcases hqcase with hqr | ⟨he, _⟩ | ⟨he, _⟩
            · exact hqf q (List.mem_cons_of_mem r hqr) x hy
            · subst he
              exact rectBlockSep_of_sub (by dsimp only; omega) (by dsimp only; omega)
                (by dsimp only; omega) (by dsimp only; omega) (hrf x hy)
            · subst he
              exact rectBlockSep_of_sub (by dsimp only; omega) (by dsimp only; omega)
                (by dsimp only; omega) (by dsimp only; omega) (hrf x hy)
          · -- x is the new block
            rw [List.mem_singleton] at hx0
            subst hx0
            rcases hqcase with hqr | ⟨he, _⟩ | ⟨he, _⟩
            · have hsep := hrrest q hqr
              unfold RectSep at hsep
              unfold RectBlockSep
              dsimp only
              rcases hsep with ⟨h1, h2⟩ | ⟨h1, h2⟩
              · omega
              · omega
            · subst he
              unfold RectBlockSep
              dsimp only
              omega
            · subst he
              unfold RectBlockSep
              dsimp only
              omega
        · -- rect bounds
          intro q hq'
          rcases List.mem_append.mp hq' with h' | h'
          · rcases List.mem_append.mp h' with h2 | h1
            · obtain ⟨he, _⟩ := mem_ite_singleton h2
              subst he
              exact ⟨by dsimp only; omega, by dsimp only; omega⟩
            · obtain ⟨he, _⟩ := mem_ite_singleton h1
              subst he
              exact ⟨by dsimp only; omega, by dsimp only; omega⟩
          · exact hqb q (List.mem_cons_of_mem r h')
        · -- block sizes and bounds
          intro x hx
          rcases List.mem_append.mp hx with hy | hx0
          · exact hfb x hy
          · rw [List.mem_singleton] at hx0
            subst hx0
            refine ⟨hsz, ?_, ?_⟩
            · show s.besti + s.bestsize ≤ la
              omega
            · show s.bestj + s.bestsize ≤ lb
              omega

/-! ## Sorting and merging of matching blocks -/

theorem blockLe_total (x y : Block) : blockLe x y ∨ blockLe y x := by
  unfold blockLe
  omega

theorem blockLe_trans {x y z : Block} (h1 : blockLe x y) (h2 : blockLe y z) :
    blockLe x z := by
  unfold blockLe at *
  omega

theorem insertBlock_perm (x : Block) (l : List Block) : List.Perm (insertBlock x l) (x :: l) := by
  induction l with
  | nil => exact List.Perm.refl _
  | cons y ys ih =>
    by_cases h : blockLe x y
    · rw [insertBlock, if_pos h]
    · rw [insertBlock, if_neg h]
      exact (ih.cons y).trans (List.Perm.swap x y ys)

theorem sortBlocks_perm (l : List Block) : List.Perm (sortBlocks l) l := by
  induction l with
  | nil => exact List.Perm.refl _
  | cons x xs ih => exact (insertBlock_perm x (sortBlocks xs)).trans (ih.cons x)

theorem insertBlock_sorted (x : Block) (l : List Block) (h : l.Pairwise blockLe) :
    (insertBlock x l).Pairwise blockLe := by
  induction l with
  | nil => exact List.pairwise_singleton _ _
  | cons y ys ih =>
    obtain ⟨hy, hys⟩ := List.pairwise_cons.mp h
    by_cases hxy : blockLe x y
    · rw [insertBlock, if_pos hxy]
      refine List.pairwise_cons.mpr ⟨?_, h⟩
      intro z hz
      rcases List.mem_cons.mp hz with rfl | hz'
      · exact hxy
      · exact blockLe_trans hxy (hy z hz')
    · rw [insertBlock, if_neg hxy]
      refine List.pairwise_cons.mpr ⟨?_, ih hys⟩
      intro z hz
      have hz' := (insertBlock_perm x ys).mem_iff.mp hz
      rcases List.mem_cons.mp hz' with hzx | hz''
      · rw [hzx]
        rcases blockLe_total x y with h' | h'
        · exact absurd h' hxy
        · exact h'
      · exact hy z hz''

theorem sortBlocks_sorted (l : List Block) : (sortBlocks l).Pairwise blockLe := by
  induction l with
  | nil => exact List.Pairwise.nil
  | cons x xs ih => exact insertBlock_sorted x _ ih

theorem blockSep_symmetric : Symmetric BlockSep := by
  intro x y h
  unfold BlockSep at *
  exact h.elim Or.inr Or.inl

theorem sorted_sep_chain (l : List Block) (hs : l.Pairwise blockLe)
    (hp : l.Pairwise BlockSep) (hz : ∀ x ∈ l, 1 ≤ x.size) :
    l.Pairwise ChainBefore := by
  have h2 : l.Pairwise (fun a c => blockLe a c ∧ BlockSep a c) := hs.and hp
  refine List.Pairwise.imp_of_mem ?_ h2
  intro x y hx hy hr
  obtain ⟨hle, hsep⟩ := hr
  rcases hsep with hC | hC
  · exact hC
  · have hzy := hz y hy
    unfold ChainBefore at *
    unfold blockLe at hle
    omega

theorem mergeAdj_ok {la lb : Nat} :
    ∀ (xs : List Block) (i1 j1 k1 : Nat) (acc : List Block),
      List.Chain' ChainBefore (acc ++ Block.mk i1 j1 k1 :: xs) →
      (∀ x ∈ acc, BlockBounded la lb x) →
      i1 + k1 ≤ la → j1 + k1 ≤ lb →
      (∀ x ∈ xs, BlockBounded la lb x) →
      List.Chain' ChainBefore (mergeAdj i1 j1 k1 acc xs) ∧
      ∀ x ∈ mergeAdj i1 j1 k1 acc xs, BlockBounded la lb x := by
  intro xs
  induction xs with
  | nil =>
    intro i1 j1 k1 acc hchain hacc hla hlb _
    by_cases hk : k1 ≠ 0
    · rw [mergeAdj, if_pos hk]
      refine ⟨hchain, ?_⟩
      intro x hx
      rcases List.mem_append.mp hx with h | h
      · exact hacc x h
      · rw [List.mem_singleton] at h
        subst h
        exact ⟨hla, hlb⟩
    · rw [mergeAdj, if_neg hk]
      exact ⟨(List.chain'_append.mp hchain).1, hacc⟩
  | cons x xs' ih =>
    intro i1 j1 k1 acc hchain hacc hla hlb hxs
    have hxb : BlockBounded la lb x := hxs x (List.mem_cons_self x xs')
    have hxs' : ∀ z ∈ xs', BlockBounded la lb z :=
      fun z hz => hxs z (List.mem_cons_of_mem x hz)
    obtain ⟨hca, hcr, hlink⟩ := List.chain'_append.mp hchain
    obtain ⟨hcx, hcxs⟩ := List.chain'_cons.mp hcr
    by_cases hadj : i1 + k1 = x.a ∧ j1 + k1 = x.b
    · rw [mergeAdj, if_pos hadj]
      apply ih
      · rw [List.chain'_append]
        refine ⟨hca, ?_, ?_⟩
        · rw [List.chain'_cons']
          refine ⟨?_, (List.chain'_cons'.mp hcxs).2⟩
          intro y hy
          have hnext := (List.chain'_cons'.mp hcxs).1 y hy
          unfold ChainBefore at *
          dsimp only at *
          omega
        · intro u hu y hy
          simp only [List.head?_cons, Option.mem_def, Option.some.injEq] at hy
          subst hy
          have huc := hlink u hu (Block.mk i1 j1 k1) (by simp)
          unfold ChainBefore at *
          dsimp only at *
          omega
      · exact hacc
      · show i1 + (k1 + x.size) ≤ la
        have hxb1 := hxb.1
        omega
      · show j1 + (k1 + x.size) ≤ lb
        have hxb2 := hxb.2
        omega
      · exact hxs'
    · rw [mergeAdj, if_neg hadj]
      by_cases hk : k1 ≠ 0
      · rw [if_pos hk]
        apply ih
        · have heq : (acc ++ [Block.mk i1 j1 k1]) ++ Block.mk x.a x.b x.size :: xs' =
              acc ++ Block.mk i1 j1 k1 :: x :: xs' := by
            rw [List.append_assoc]
            rfl
          rw [heq]
          exact hchain
        · intro z hz
          rcases List.mem_append.mp hz with h | h
          · exact hacc z h
          · rw [List.mem_singleton] at h
            subst h
            exact ⟨hla, hlb⟩
        · exact hxb.1
        · exact hxb.2
        · exact hxs'
      · rw [if_neg hk]
        have hk0 : k1 = 0 := not_not.mp hk
        apply ih
        · rw [List.chain'_append]
          refine ⟨hca, hcxs, ?_⟩
          intro u hu y hy
          simp only [List.head?_cons, Option.mem_def, Option.some.injEq] at hy
          subst hy
          have huc := hlink u hu (Block.mk i1 j1 k1) (by simp)
          unfold ChainBefore at *
          dsimp only at *
          omega
        · exact hacc
        · exact hxb.1
        · exact hxb.2
        · exact hxs'

theorem chainFrom_of_chain' :
    ∀ (l : List Block) (i j : Nat), List.Chain' ChainBefore l →
      (∀ x ∈ l.head?, i ≤ x.a ∧ j ≤ x.b) → ChainFrom i j l := by
  intro l
  induction l with
  | nil => intro i j _ _; exact trivial
  | cons x xs ih =>
    intro i j hc hh
    have hx := hh x (by simp)
    obtain ⟨hnext, hxs⟩ := List.chain'_cons'.mp hc
    refine ⟨hx.1, hx.2, ?_⟩
    apply ih _ _ hxs
    intro y hy
    have hcb := hnext y hy
    unfold ChainBefore at hcb
    exact ⟨hcb.1, hcb.2⟩

theorem getMatchingBlocks_eq (a b : List Char) :
    getMatchingBlocks a b =
      mergeAdj 0 0 0 [] (sortBlocks (mbLoop a b (a.length + b.length + 1)
        [Rect.mk 0 a.length 0 b.length] [])) ++ [Block.mk a.length b.length 0] := rfl

theorem getMatchingBlocks_chainFrom (a b : List Char) :
    ChainFrom 0 0 (getMatchingBlocks a b) := by
  have hinv : MBInv a.length b.length [Rect.mk 0 a.length 0 b.length] [] := by
    refine ⟨List.pairwise_singleton _ _, List.Pairwise.nil, ?_, ?_, ?_⟩
    · intro r _ x hx
      simp at hx
    · intro r hr
      rw [List.mem_singleton] at hr
      subst hr
      exact ⟨Nat.le_refl _, Nat.le_refl _⟩
    · intro x hx
      simp at hx
  obtain ⟨hfp, hfb⟩ :=
    mbLoop_ok (a.length + b.length + 1) [Rect.mk 0 a.length 0 b.length] [] hinv
  rw [getMatchingBlocks_eq]
  set found := mbLoop a b (a.length + b.length + 1) [Rect.mk 0 a.length 0 b.length] []
    with hfdef
  have hsortP : (sortBlocks found).Pairwise BlockSep :=
    ((sortBlocks_perm found).pairwise_iff (fun h => blockSep_symmetric h)).mpr hfp
  have hsortz : ∀ x ∈ sortBlocks found, 1 ≤ x.size ∧ BlockBounded a.length b.length x :=
    fun x hx => hfb x ((sortBlocks_perm found).mem_iff.mp hx)
  have hchain : (sortBlocks found).Pairwise ChainBefore :=
    sorted_sep_chain _ (sortBlocks_sorted found) hsortP (fun x hx => (hsortz x hx).1)
  have hmerge := mergeAdj_ok (sortBlocks found) 0 0 0 []
    (by
      rw [List.nil_append, List.chain'_cons']
      exact ⟨fun y _ => ⟨Nat.zero_le _, Nat.zero_le _⟩, hchain.chain'⟩)
    (fun x hx => by simp at hx) (Nat.zero_le _) (Nat.zero_le _)
    (fun x hx => (hsortz x hx).2)
  apply chainFrom_of_chain'
  · rw [List.chain'_append]
    refine ⟨hmerge.1, List.chain'_singleton _, ?_⟩
    intro u hu y hy
    simp only [List.head?_cons, Option.mem_def, Option.some.injEq] at hy
    subst hy
    have humem : u ∈ mergeAdj 0 0 0 [] (sortBlocks found) := by
      obtain ⟨hne, hequ⟩ := List.mem_getLast?_eq_getLast hu
      rw [hequ]
      exact List.getLast_mem hne
    have hub := hmerge.2 u humem
    unfold BlockBounded at hub
    unfold ChainBefore
    dsimp only
    omega
  · intro x _
    exact ⟨Nat.zero_le _, Nat.zero_le _⟩

/-! ## Opcode and span lemmas -/

theorem opGo_cons (i j : Nat) (x : Block) (xs : List Block) :
    opGo i j (x :: xs) =
      (if i < x.a ∧ j < x.b then [Opcode.mk Tag.replace i x.a j x.b]
       else if i < x.a then [Opcode.mk Tag.delete i x.a j x.b]
       else if j < x.b then [Opcode.mk Tag.insert i x.a j x.b]
       else []) ++
      (if x.size ≠ 0 then [Opcode.mk Tag.equal x.a (x.a + x.size) x.b (x.b + x.size)]
       else []) ++
      opGo (x.a + x.size) (x.b + x.size) xs := rfl

theorem opGo_pre_mem {i j : Nat} {x : Block} {op : Opcode}
    (h : op ∈ (if i < x.a ∧ j < x.b then [Opcode.mk Tag.replace i x.a j x.b]
       else if i < x.a then [Opcode.mk Tag.delete i x.a j x.b]
       else if j < x.b then [Opcode.mk Tag.insert i x.a j x.b]
       else [])) :
    op.i1 = i ∧ op.i2 = x.a ∧ op.j1 = j ∧ op.j2 = x.b := by
  by_cases h1 : i < x.a ∧ j < x.b
  · rw [if_pos h1] at h
    rw [List.mem_singleton] at h
    subst h
    exact ⟨rfl, rfl, rfl, rfl⟩
  · rw [if_neg h1] at h
    by_cases h2 : i < x.a
    · rw [if_pos h2] at h
      rw [List.mem_singleton] at h
      subst h
      exact ⟨rfl, rfl, rfl, rfl⟩
    · rw [if_neg h2] at h
      by_cases h3 : j < x.b
      · rw [if_pos h3] at h
        rw [List.mem_singleton] at h
        subst h
        exact ⟨rfl, rfl, rfl, rfl⟩
      · rw [if_neg h3] at h
        simp at h

theorem opGo_ok :
    ∀ (blocks : List Block) (i j : Nat), ChainFrom i j blocks →
      (∀ op ∈ opGo i j blocks, j ≤ op.j1 ∧ op.j1 ≤ op.j2) ∧
      (opGo i j blocks).Pairwise (fun o1 o2 => o1.j2 ≤ o2.j1) := by
  intro blocks
  induction blocks with
  | nil =>
    intro i j _
    exact ⟨fun op hop => absurd hop (by simp [opGo]), List.Pairwise.nil⟩
  | cons x xs ih =>
    intro i j hcf
    obtain ⟨hia, hjb, hrest⟩ := hcf
    obtain ⟨ihmem, ihpair⟩ := ih (x.a + x.size) (x.b + x.size) hrest
    rw [opGo_cons]
    constructor
    · intro op hop
      rcases List.mem_append.mp hop with h' | hrec
      · rcases List.mem_append.mp h' with hpre | heq
        · obtain ⟨_, _, hj1, hj2⟩ := opGo_pre_mem hpre
          exact ⟨by omega, by omega⟩
        · obtain ⟨he, _⟩ := mem_ite_singleton heq
          subst he
          refine ⟨?_, ?_⟩
          · show j ≤ x.b
            omega
          · show x.b ≤ x.b + x.size
            omega
      · have hv := ihmem op hrec
        exact ⟨by omega, hv.2⟩
    · refine List.pairwise_append.mpr ⟨List.pairwise_append.mpr ⟨?_, ?_, ?_⟩, ihpair, ?_⟩
      · by_cases h1 : i < x.a ∧ j < x.b
        · rw [if_pos h1]
          exact List.pairwise_singleton _ _
        · rw [if_neg h1]
          by_cases h2 : i < x.a
          · rw [if_pos h2]
            exact List.pairwise_singleton _ _
          · rw [if_neg h2]
            by_cases h3 : j < x.b
            · rw [if_pos h3]
              exact List.pairwise_singleton _ _
            · rw [if_neg h3]
              exact List.Pairwise.nil
      · exact pairwise_ite_singleton _
      · intro u hu v hv
        obtain ⟨_, _, _, hj2⟩ := opGo_pre_mem hu
        obtain ⟨he, _⟩ := mem_ite_singleton hv
        subst he
        show u.j2 ≤ x.b
        omega
      · intro u hu v hv
        have hvj := (ihmem v hv).1
        rcases List.mem_append.mp hu with hpre | heqs
        · obtain ⟨_, _, _, hj2⟩ := opGo_pre_mem hpre
          omega
        · obtain ⟨he, _⟩ := mem_ite_singleton heqs
          subst he
          show x.b + x.size ≤ v.j1
          omega

theorem opGo_delete :
    ∀ (blocks : List Block) (i j : Nat) (op : Opcode), op ∈ opGo i j blocks →
      op.tag = Tag.delete → op.j2 ≤ op.j1 := by
  intro blocks
  induction blocks with
  | nil =>
    intro i j op hop _
    simp [opGo] at hop
  | cons x xs ih =>
    intro i j op hop htag
    rw [opGo_cons] at hop
    rcases List.mem_append.mp hop with h' | hrec
    · rcases List.mem_append.mp h' with hpre | heq
      · by_cases h1 : i < x.a ∧ j < x.b
        · rw [if_pos h1] at hpre
          rw [List.mem_singleton] at hpre
          subst hpre
          simp at htag
        · rw [if_neg h1] at hpre
          by_cases h2 : i < x.a
          · rw [if_pos h2] at hpre
            rw [List.mem_singleton] at hpre
            subst hpre
            have h3 : ¬ j < x.b := fun hh => h1 ⟨h2, hh⟩
            show x.b ≤ j
            omega
          · rw [if_neg h2] at hpre
            by_cases h3 : j < x.b
            · rw [if_pos h3] at hpre
              rw [List.mem_singleton] at hpre
              subst hpre
              simp at htag
            · rw [if_neg h3] at hpre
              simp at hpre
      · obtain ⟨he, _⟩ := mem_ite_singleton heq
        subst he
        simp at htag
    · exact ih _ _ op hrec htag

theorem pairwise_filterMap_of {α β : Type} (f : α → Option β) {R : α → α → Prop}
    {S : β → β → Prop} :
    ∀ {l : List α}, l.Pairwise R →
      (∀ x y, R x y → ∀ s ∈ f x, ∀ t ∈ f y, S s t) → (l.filterMap f).Pairwise S := by
  intro l
  induction l with
  | nil =>
    intro _ _
    simp only [List.filterMap_nil]
    exact List.Pairwise.nil
  | cons a l ih =>
    intro h hf
    obtain ⟨ha, hl⟩ := List.pairwise_cons.mp h
    cases hfa : f a with
    | none =>
      simp only [List.filterMap_cons, hfa]
      exact ih hl hf
    | some s =>
      simp only [List.filterMap_cons, hfa]
      refine List.pairwise_cons.mpr ⟨?_, ih hl hf⟩
      intro t ht
      obtain ⟨y, hy, hfy⟩ := List.mem_filterMap.mp ht
      exact hf a y (ha y hy) s (by simp [hfa]) t (by simp [hfy])

theorem filterMap_congr_mem {α β : Type} {f g : α → Option β} :
    ∀ {l : List α}, (∀ x ∈ l, f x = g x) → l.filterMap f = l.filterMap g := by
  intro l
  induction l with
  | nil => intro _; rfl
  | cons a l ih =>
    intro h
    rw [List.filterMap_cons, List.filterMap_cons, h a (by simp),
      ih (fun x hx => h x (by simp [hx]))]

theorem emitSpan_eq_some {original : List Char} {op : Opcode} {s : ChangedSpan}
    (h : emitSpan original op = some s) :
    s.outputStart = op.j1 ∧ s.outputEnd = op.j2 ∧ op.j1 ≠ op.j2 := by
  unfold emitSpan at h
  by_cases h1 : op.tag = Tag.equal
  · rw [if_pos h1] at h
    simp at h
  · rw [if_neg h1] at h
    by_cases h2 : (op.tag = Tag.replace ∨ op.tag = Tag.insert) ∧ op.j1 ≠ op.j2
    · rw [if_pos h2] at h
      simp only [Option.some.injEq] at h
      subst h
      exact ⟨rfl, rfl, h2.2⟩
    · rw [if_neg h2] at h
      simp at h

/-! ## C5: span ordering -/

/-- C5: for every pair of strings, the spans of `computeChanges` come in
non-decreasing, pairwise non-overlapping output order (each span ends at
or before the next one starts), and each emitted span is non-empty. -/
theorem C5_spans_ordered (original modified : String) :
    (computeChanges original modified).Pairwise
      (fun s t => s.outputEnd ≤ t.outputStart) ∧
    (∀ s ∈ computeChanges original modified, s.outputStart < s.outputEnd) := by
  have hchain := getMatchingBlocks_chainFrom original.data modified.data
  obtain ⟨hmem, hpair⟩ := opGo_ok (getMatchingBlocks original.data modified.data) 0 0 hchain
  constructor
  · unfold computeChanges applyDiffHighlight getOpcodes
    apply pairwise_filterMap_of _ hpair
    intro x y hxy s hs t ht
    obtain ⟨_, hs2, _⟩ := emitSpan_eq_some (Option.mem_def.mp hs)
    obtain ⟨ht1, _, _⟩ := emitSpan_eq_some (Option.mem_def.mp ht)
    omega
  · intro s hs
    unfold computeChanges applyDiffHighlight getOpcodes at hs
    obtain ⟨op, hop, hf⟩ := List.mem_filterMap.mp hs
    obtain ⟨h1, h2, h3⟩ := emitSpan_eq_some hf
    have h4 := (hmem op hop).2
    omega

set_option maxRecDepth 100000 in
theorem C5_spans_ordered_witness :
    ChangedSpan.mk 0 3 "cat" ∈ computeChanges "cat sat on a cat" "dog sat on a dog" ∧
    (ChangedSpan.mk 0 3 "cat").outputStart < (ChangedSpan.mk 0 3 "cat").outputEnd :=
  ⟨by decide,
    (C5_spans_ordered "cat sat on a cat" "dog sat on a dog").2 _ (by decide)⟩

/-! ## C6: per-opcode span emission -/

/-- C6: `computeChanges` emits, per opcode in order, exactly what the spec
prescribes: one span for each `replace`/`insert` opcode with a non-empty
output range (with `outputStart = j1`, `outputEnd = j2`, `originalText` the
truncated slice `original[i1:i2]`), and nothing for `equal` and `delete`
opcodes; every `delete` opcode indeed has an empty output range
(`j1 = j2`). -/
theorem C6_opcode_emission (original modified : String) :
    computeChanges original modified =
      (getOpcodes original.data modified.data).filterMap (specEmitSpan original.data) ∧
    (∀ op ∈ getOpcodes original.data modified.data,
      op.tag = Tag.delete → op.j1 = op.j2) ∧
    (∀ op ∈ getOpcodes original.data modified.data,
      op.tag = Tag.equal ∨ op.tag = Tag.delete → specEmitSpan original.data op = none) := by
  have hchain := getMatchingBlocks_chainFrom original.data modified.data
  obtain ⟨hmem, _⟩ := opGo_ok (getMatchingBlocks original.data modified.data) 0 0 hchain
  refine ⟨?_, ?_, ?_⟩
  · unfold computeChanges applyDiffHighlight
    apply filterMap_congr_mem
    intro op hop
    have hle := (hmem op hop).2
    unfold emitSpan specEmitSpan
    cases htag : op.tag with
    | equal =>
      rw [if_pos rfl, if_neg (by simp)]
    | replace =>
      rw [if_neg (by simp)]
      by_cases h2 : op.j1 ≠ op.j2
      · rw [if_pos ⟨Or.inl rfl, h2⟩, if_pos ⟨Or.inl rfl, by omega⟩]
      · rw [if_neg (fun hc => h2 hc.2), if_neg (fun hc => h2 (by omega))]
    | delete =>
      rw [if_neg (by simp), if_neg (by simp), if_neg (by simp)]
    | insert =>
      rw [if_neg (by simp)]
      by_cases h2 : op.j1 ≠ op.j2
      · rw [if_pos ⟨Or.inr rfl, h2⟩, if_pos ⟨Or.inr rfl, by omega⟩]
      · rw [if_neg (fun hc => h2 hc.2), if_neg (fun hc => h2 (by omega))]
  · intro op hop htag
    have h1 := (hmem op hop).2
    have h2 := opGo_delete (getMatchingBlocks original.data modified.data) 0 0 op hop htag
    omega
  · intro op hop htag
    unfold specEmitSpan
    rcases htag with h | h <;> rw [if_neg (by simp [h])]

set_option maxRecDepth 100000 in
theorem C6_opcode_emission_witness :
    Opcode.mk Tag.delete 1 2 1 1 ∈ getOpcodes "ab".data "a".data ∧
    (Opcode.mk Tag.delete 1 2 1 1).j1 = (Opcode.mk Tag.delete 1 2 1 1).j2 :=
  ⟨by decide, (C6_opcode_emission "ab" "a").2.1 (Opcode.mk Tag.delete 1 2 1 1)
    (by decide) (by decide)⟩

end TextReplace
